import Mathlib

/-!
Verification of the mDNS/DNS-SD browsing loop (`lookupType` in browse.go).

The development shallowly embeds the browse loop: the known-answer filter,
the entry reconciler (addition and removal passes over the announced set),
the query scheduler's backoff-interval computation, and the select loop's
event handling.  External collaborators that are not part of browse.go
(the record cache's `Service` type and its accessors, interface resolution,
the random source) are modelled from the specification and marked as such
in their doc comments.  Go durations and instants are nanosecond integers;
Go's wrapping int64 arithmetic is made explicit where it matters.
-/

namespace Dnssd

/-- Caller-facing discovered service instance (browse.go, `BrowseEntry`).
The Go field `Type` is rendered `Ty`; IP addresses are modelled as strings. -/
structure BrowseEntry where
  IPs : List String
  Host : String
  Port : Nat
  IfaceName : String
  Name : String
  Ty : String
  Domain : String
  Text : List (String × String)
deriving DecidableEq, Repr

/-- browse.go `BrowseEntry.ServiceInstanceName`: the unescaped fully-qualified
instance name `<instance>.<service>.<domain>.` (note the trailing dot). -/
def BrowseEntry.ServiceInstanceName (e : BrowseEntry) : String :=
  e.Name ++ "." ++ e.Ty ++ "." ++ e.Domain ++ "."

/-- Modelled from the spec: the record cache's `ServiceRecord` (`Service` in
the repository, not under src/): identity (instance name, service type,
domain), host, port, per-interface resolved addresses (an association list
with one slot per interface), text attributes, time-to-live and absolute
expiration instant (both in nanoseconds). -/
structure Service where
  Name : String
  Ty : String
  Domain : String
  Host : String
  Port : Nat
  ifaceIPs : List (String × List String)
  Text : List (String × String)
  TTL : Int
  expiration : Int
deriving DecidableEq, Repr

/-- Modelled from the spec: `Service.ServiceName`, the fully-qualified service
type `<service>.<domain>.` that browse.go compares against the browsed type. -/
def Service.ServiceName (s : Service) : String :=
  s.Ty ++ "." ++ s.Domain ++ "."

/-- Modelled from the spec: `Service.ServiceInstanceName`, the fully-qualified
instance name `<instance>.<service>.<domain>.` of a cached record. -/
def Service.ServiceInstanceName (s : Service) : String :=
  s.Name ++ "." ++ s.Ty ++ "." ++ s.Domain ++ "."

/-! ## Known-Answer Filter (browse.go lines 142-153) -/

/-- browse.go lines 142-153: known-answer suppression.  From the cache
snapshot keep exactly the records of the browsed service type whose remaining
lifetime `expiration - now` strictly exceeds `TTL/2` (Go's truncating integer
division); the orchestrator attaches the PTR record of each kept service to
the outgoing query's answer section. -/
def knownAnswers (services : List Service) (service : String) (now : Int) : List Service :=
  services.filter (fun srv =>
    srv.ServiceName == service && decide (srv.expiration - now > Int.tdiv srv.TTL 2))

/-- A record of the browsed type with TTL 100s and 60s of lifetime left
(`now = 0`), i.e. above the 50% freshness threshold. -/
def srvFresh : Service :=
  { Name := "foo", Ty := "_http._tcp", Domain := "local", Host := "h.local.", Port := 80,
    ifaceIPs := [("en0", ["192.168.0.17"])], Text := [],
    TTL := 100 * 1000000000, expiration := 60 * 1000000000 }

/-- The same record with only 40s of lifetime left, i.e. below the 50%
freshness threshold. -/
def srvStale : Service :=
  { srvFresh with expiration := 40 * 1000000000 }

/-- Claim C3: the known-answer filter includes a cached record in the outgoing
query's answer section if and only if the record's service name equals the
browsed type and its remaining lifetime strictly exceeds half its TTL
(`expiration - now > TTL/2`); in particular, with TTL = 100s, a record with
60s remaining is included and one with 40s remaining is excluded. -/
theorem knownAnswers_mem_iff :
    (∀ (services : List Service) (service : String) (now : Int) (srv : Service),
      srv ∈ knownAnswers services service now ↔
        srv ∈ services ∧ srv.ServiceName = service ∧
          srv.expiration - now > Int.tdiv srv.TTL 2) ∧
    srvFresh ∈ knownAnswers [srvFresh] "_http._tcp.local." 0 ∧
    srvStale ∉ knownAnswers [srvStale] "_http._tcp.local." 0 := by
  refine ⟨fun services service now srv => ?_, by decide, by decide⟩
  simp only [knownAnswers, List.mem_filter, Bool.and_eq_true, beq_iff_eq,
    decide_eq_true_eq, and_assoc]

/-! ## Entry Reconciler (browse.go lines 158-208) -/

/-- The (instance name, interface name) key under which the announced set is
deduplicated. -/
def entryKey (e : BrowseEntry) : String × String :=
  (e.Name, e.IfaceName)

/-- browse.go lines 167-173: scan of the announced set for an entry with the
given instance name and interface name. -/
def containsPair (es : List BrowseEntry) (name iface : String) : Bool :=
  es.any (fun e => e.Name == name && e.IfaceName == iface)

/-- browse.go lines 175-184: the `BrowseEntry` built from a record's
per-interface data when a (name, interface) pair is first observed. -/
def entryFrom (srv : Service) (ifaceName : String) (ips : List String) : BrowseEntry :=
  { IPs := ips, Host := srv.Host, Port := srv.Port, IfaceName := ifaceName,
    Name := srv.Name, Ty := srv.Ty, Domain := srv.Domain, Text := srv.Text }

/-- browse.go lines 166-188, body of the inner loop over `srv.ifaceIPs`:
the running state is (announced set so far, additions so far); a new entry is
appended to both only when no entry with the same name and interface is
already present in the running announced set. -/
def addStep (srv : Service) (st : List BrowseEntry × List BrowseEntry)
    (p : String × List String) : List BrowseEntry × List BrowseEntry :=
  if containsPair st.1 srv.Name p.1 then st
  else (st.1 ++ [entryFrom srv p.1 p.2], st.2 ++ [entryFrom srv p.1 p.2])

/-- browse.go lines 161-189: the addition pass, iterating over the snapshot's
records, skipping those of other service types, and running the inner
interface loop for the matching ones. -/
def additionPass (services : List Service) (service : String)
    (st : List BrowseEntry × List BrowseEntry) : List BrowseEntry × List BrowseEntry :=
  services.foldl
    (fun st srv =>
      if srv.ServiceName == service then srv.ifaceIPs.foldl (addStep srv) st else st)
    st

/-- browse.go lines 193-199: an announced entry survives the removal pass iff
some record in the snapshot has the same fully-qualified instance name. -/
def removalKeep (services : List Service) (e : BrowseEntry) : Bool :=
  services.any (fun srv => srv.ServiceInstanceName == e.ServiceInstanceName)

/-- browse.go lines 191-208: the removal pass splits the announced set into the
kept entries (`tmp`, in order) and the removals, for which `rmv` fires. -/
def removalPass (services : List Service) (es : List BrowseEntry) :
    List BrowseEntry × List BrowseEntry :=
  (es.filter (removalKeep services), es.filter (fun e => !removalKeep services e))

/-- browse.go lines 158-208, handling of one inbound message: against the
post-ingestion snapshot, run the addition pass starting from the prior
announced set with no additions, then the removal pass over the extended set.
Returns (new announced set, additions in callback order, removals in callback
order). -/
def reconcile (services : List Service) (service : String) (es : List BrowseEntry) :
    List BrowseEntry × List BrowseEntry × List BrowseEntry :=
  let st := additionPass services service (es, [])
  let rp := removalPass services st.1
  (rp.1, st.2, rp.2)

/-- The announced set holds at most one entry per (instance name, interface)
pair. -/
def dedup (es : List BrowseEntry) : Prop :=
  (es.map entryKey).Nodup

instance (es : List BrowseEntry) : Decidable (dedup es) := by
  unfold dedup
  infer_instance

theorem containsPair_eq_true_iff (es : List BrowseEntry) (name iface : String) :
    containsPair es name iface = true ↔ (name, iface) ∈ es.map entryKey := by
  simp only [containsPair, List.any_eq_true, Bool.and_eq_true, beq_iff_eq, List.mem_map,
    entryKey]
  constructor
  · rintro ⟨e, he, h1, h2⟩
    exact ⟨e, he, by rw [h1, h2]⟩
  · rintro ⟨e, he, h⟩
    exact ⟨e, he, congrArg Prod.fst h, congrArg Prod.snd h⟩

theorem containsPair_eq_false_iff (es : List BrowseEntry) (name iface : String) :
    containsPair es name iface = false ↔ (name, iface) ∉ es.map entryKey := by
  rw [← containsPair_eq_true_iff]
  cases h : containsPair es name iface <;> simp [h]

theorem containsPair_append (l1 l2 : List BrowseEntry) (name iface : String) :
    containsPair (l1 ++ l2) name iface =
      (containsPair l1 name iface || containsPair l2 name iface) := by
  simp [containsPair, List.any_append]

theorem entryKey_entryFrom (srv : Service) (ifaceName : String) (ips : List String) :
    entryKey (entryFrom srv ifaceName ips) = (srv.Name, ifaceName) := rfl

/-- A generic invariance principle for left folds. -/
theorem foldl_inv {α σ : Type _} (inv : σ → Prop) (f : σ → α → σ)
    (hf : ∀ s a, inv s → inv (f s a)) :
    ∀ (l : List α) (s : σ), inv s → inv (l.foldl f s) := by
  intro l
  induction l with
  | nil => intro s hs; exact hs
  | cons a l ih => intro s hs; exact ih (f s a) (hf s a hs)

theorem dedup_append_singleton {es : List BrowseEntry} {e : BrowseEntry}
    (h : dedup es) (he : entryKey e ∉ es.map entryKey) : dedup (es ++ [e]) := by
  unfold dedup at h ⊢
  rw [List.map_append, List.nodup_append]
  refine ⟨h, List.nodup_singleton _, ?_⟩
  intro a ha hb
  simp only [List.map_cons, List.map_nil, List.mem_singleton] at hb
  exact he (hb ▸ ha)

theorem addStep_dedup (srv : Service) (st : List BrowseEntry × List BrowseEntry)
    (p : String × List String) (h : dedup st.1) : dedup (addStep srv st p).1 := by
  unfold addStep
  by_cases hc : containsPair st.1 srv.Name p.1
  · simp only [hc, if_true]; exact h
  · simp only [hc, if_false]
    have hnot : (srv.Name, p.1) ∉ st.1.map entryKey :=
      (containsPair_eq_false_iff st.1 srv.Name p.1).mp (Bool.eq_false_iff.mpr hc)
    exact dedup_append_singleton h (by rw [entryKey_entryFrom]; exact hnot)

theorem additionPass_dedup (services : List Service) (service : String)
    (st : List BrowseEntry × List BrowseEntry) (h : dedup st.1) :
    dedup (additionPass services service st).1 := by
  unfold additionPass
  refine foldl_inv (fun st => dedup st.1) _ ?_ services st h
  intro s srv hs
  by_cases hm : srv.ServiceName == service
  · simp only [hm, if_true]
    exact foldl_inv (fun st => dedup st.1) (addStep srv)
      (fun s p hp => addStep_dedup srv s p hp) srv.ifaceIPs s hs
  · simp only [hm, if_false]; exact hs

theorem removalPass_dedup (services : List Service) (es : List BrowseEntry)
    (h : dedup es) : dedup (removalPass services es).1 := by
  unfold removalPass dedup
  exact List.Nodup.sublist (List.Sublist.map entryKey (List.filter_sublist es)) h

theorem reconcile_dedup (services : List Service) (service : String)
    (es : List BrowseEntry) (h : dedup es) : dedup (reconcile services service es).1 :=
  removalPass_dedup services _ (additionPass_dedup services service (es, []) h)

/-! ## The orchestrator's select loop (browse.go lines 137-212) -/

/-- Modelled from the spec: the two distinguishable terminal reasons of a Go
context, `context.Canceled` (explicit stop) and `context.DeadlineExceeded`
(timeout); `ctx.Err()` returns whichever applies once the context is done. -/
inductive CtxErr where
  | canceled
  | deadlineExceeded
deriving DecidableEq, Repr

/-- The state owned exclusively by the select loop: the record cache's current
contents (as the snapshot it would return) and the announced set `es`. -/
structure LoopState where
  snapshot : List Service
  es : List BrowseEntry
deriving DecidableEq, Repr

/-- The three select cases of browse.go lines 139-211.  A `trigger` carries
the current time (`time.Until` is relative to it) and whether `SendQuery`
succeeded; an `inbound` carries the post-ingestion cache snapshot (cache
ingestion `cache.UpdateFrom` is the external collaborator, modelled from the
spec as producing the new snapshot); `done` carries `ctx.Err()`. -/
inductive Event where
  | trigger (now : Int) (sendOk : Bool)
  | inbound (snapshot : List Service)
  | done (reason : CtxErr)
deriving DecidableEq, Repr

/-- The effect of one select-loop iteration: the successor state, the entries
passed to the `add` callback, the entries passed to the `rmv` callback (in
that order: all additions fire before removals are evaluated), and, for a
trigger, the known-answer list attached to the outgoing query. -/
structure StepOut where
  state : LoopState
  adds : List BrowseEntry
  rmvs : List BrowseEntry
  sentAnswers : Option (List Service)
deriving DecidableEq, Repr

/-- browse.go lines 139-211, one iteration of the select loop.
On a query trigger (lines 140-156), the known-answer filter is applied to the
current snapshot and the query is sent; a send error is only logged (lines
154-156), so the branch leaves the cache and announced set untouched and
fires no callback either way.  On an inbound message (lines 158-208) the
cache is updated and the reconciler runs.  On `ctx.Done()` (lines 209-210)
the loop returns `ctx.Err()`. -/
def loopStep (service : String) (s : LoopState) : Event → StepOut ⊕ CtxErr
  | .trigger now _sendOk =>
      .inl ⟨s, [], [], some (knownAnswers s.snapshot service now)⟩
  | .inbound snap =>
      let r := reconcile snap service s.es
      .inl ⟨⟨snap, r.1⟩, r.2.1, r.2.2, none⟩
  | .done reason => .inr reason

/-- Iterated select loop over a finite trace of delivered events; the result
is the returned error, if the loop returned within the trace. -/
def loopRun (service : String) (s : LoopState) : List Event → Option CtxErr
  | [] => none
  | ev :: evs =>
    match loopStep service s ev with
    | .inl out => loopRun service out.state evs
    | .inr r => some r

/-- Claim C1: the announced set contains at most one `BrowseEntry` per
distinct (instance name, interface name) pair: the addition pass appends a
new entry only after scanning the current announced set and finding no entry
with the same `Name` and `IfaceName` (definition `addStep`), and the
deduplication invariant is preserved by every step of the select loop, in
particular by every inbound-message event. -/
theorem loopStep_preserves_dedup (service : String) (s : LoopState) (ev : Event)
    (out : StepOut) (hout : loopStep service s ev = Sum.inl out)
    (hd : dedup s.es) : dedup out.state.es := by
  cases ev with
  | trigger now sendOk =>
    simp only [loopStep] at hout
    cases hout
    exact hd
  | inbound snap =>
    simp only [loopStep] at hout
    cases hout
    exact reconcile_dedup snap service s.es hd
  | done reason =>
    simp only [loopStep] at hout
    exact absurd hout (by simp)

/-- An announced entry for instance `foo` on `en0`, as created from
`srvFresh`. -/
def entFoo : BrowseEntry :=
  entryFrom srvFresh "en0" ["192.168.0.17"]

theorem loopStep_preserves_dedup_witness :
    dedup (StepOut.state ⟨⟨[srvFresh], [entFoo]⟩, [], [], none⟩).es :=
  loopStep_preserves_dedup "_http._tcp.local." ⟨[], [entFoo]⟩
    (Event.inbound [srvFresh]) ⟨⟨[srvFresh], [entFoo]⟩, [], [], none⟩
    (by decide) (by decide)

/-- Whether a delivered event is the cancellation case. -/
def Event.isDone : Event → Bool
  | .done _ => true
  | _ => false

/-- Claim C6: when the supplied context is cancelled the browsing loop returns
that context's terminal error verbatim (`ctx.Err()`, distinguishing a
deadline timeout from an explicit stop), and cancellation is the only normal
return path: a trace without a cancellation event never makes the loop
return. -/
theorem loopRun_returns_cancellation (service : String) (s : LoopState)
    (pre : List Event) (hpre : ∀ e ∈ pre, e.isDone = false) (r : CtxErr) :
    loopRun service s (pre ++ [Event.done r]) = some r ∧
    loopRun service s pre = none := by
  induction pre generalizing s with
  | nil => exact ⟨rfl, rfl⟩
  | cons ev evs ih =>
    have hev : ev.isDone = false := hpre ev (List.mem_cons_self ev evs)
    have hevs : ∀ e ∈ evs, e.isDone = false :=
      fun e he => hpre e (List.mem_cons_of_mem ev he)
    cases ev with
    | trigger now sendOk =>
      simpa only [List.cons_append, loopRun, loopStep] using
        ih (s := ⟨s.snapshot, s.es⟩) hevs
    | inbound snap =>
      simpa only [List.cons_append, loopRun, loopStep] using
        ih (s := ⟨snap, (reconcile snap service s.es).1⟩) hevs
    | done reason => simp [Event.isDone] at hev

theorem loopRun_returns_cancellation_witness :
    loopRun "_http._tcp.local." ⟨[], []⟩
        [Event.trigger 0 true, Event.inbound [srvFresh], Event.done CtxErr.canceled] =
      some CtxErr.canceled :=
  (loopRun_returns_cancellation "_http._tcp.local." ⟨[], []⟩
    [Event.trigger 0 true, Event.inbound [srvFresh]] (by decide)
    CtxErr.canceled).1

/-- Claim C7: a failed query send is absorbed: the trigger branch logs the
error and the loop continues (the step yields a successor state, not a
return), the cache snapshot and the announced set are exactly what they were
before the send, no callback fires, the attached known-answer list is the one
computed from the unchanged snapshot, and the remainder of any event trace
proceeds exactly as if the trigger had not been delivered at all. -/
theorem send_failure_absorbed (service : String) (s : LoopState) (now : Int)
    (post : List Event) :
    loopStep service s (Event.trigger now false) =
      Sum.inl ⟨s, [], [], some (knownAnswers s.snapshot service now)⟩ ∧
    loopStep service s (Event.trigger now false) =
      loopStep service s (Event.trigger now true) ∧
    loopRun service s (Event.trigger now false :: post) = loopRun service s post :=
  ⟨rfl, rfl, rfl⟩

/-! ## Query scheduler backoff (browse.go lines 96-135) -/

/-- Go's `time.Second` in nanoseconds. -/
def secondNs : Int := 1000000000

/-- Go's `time.Hour` in nanoseconds. -/
def hourNs : Int := 3600 * secondNs

/-- Two's-complement wraparound of Go's 64-bit signed integer arithmetic. -/
def wrap64 (x : Int) : Int := (x + 2 ^ 63) % 2 ^ 64 - 2 ^ 63

/-- browse.go lines 114-122: the interval update performed before each wait of
the continuous scheduler.  While the interval is below one hour it is
recomputed as `time.Duration(1<<counter) * time.Second` — both the shift and
the multiplication in wrapping int64 arithmetic — and capped to one hour when
the result reaches the hour or is negative (overflow). -/
def nextInterval (counter : Nat) (interval : Int) : Int :=
  if interval < hourNs then
    let i := wrap64 (wrap64 (2 ^ counter) * secondNs)
    if i ≥ hourNs ∨ i < 0 then hourNs else i
  else interval

/-- One round of the continuous loop as it affects (counter, interval): the
interval is updated before the wait and the counter is incremented when the
wait elapses (browse.go lines 111-131). -/
def schedStep (st : Nat × Int) : Nat × Int :=
  (st.1 + 1, nextInterval st.1 st.2)

/-- The scheduler's (counter, interval) just after the k-th wait began:
the loop enters tick 1 with counter 0 and interval 0, and `(schedState k).2`
is the delay passed to `time.After` between tick k and tick k+1. -/
def schedState : Nat → Nat × Int
  | 0 => (0, 0)
  | k + 1 => schedStep (schedState k)

/-- The delay between tick k and tick k+1 of the continuous scheduler. -/
def tickDelay (k : Nat) : Int := (schedState k).2

theorem wrap64_eq_of_lt {x : Int} (h0 : 0 ≤ x) (h1 : x < 2 ^ 63) : wrap64 x = x := by
  unfold wrap64
  rw [Int.emod_eq_of_lt (by omega) (by omega)]
  omega

theorem secondNs_pos : (0 : Int) < secondNs := by decide

theorem schedState_closed_form (k : Nat) :
    schedState (k + 1) = (k + 1, min ((2 : Int) ^ k * secondNs) hourNs) := by
  induction k with
  | zero =>
    have h1 : nextInterval 0 0 = 1000000000 := by decide
    have h2 : min ((2 : Int) ^ 0 * secondNs) hourNs = 1000000000 := by decide
    simp only [schedState, schedStep, h1, h2]
  | succ k ih =>
    show schedStep (schedState (k + 1)) = _
    rw [ih]
    unfold schedStep
    simp only
    rcases le_or_lt hourNs ((2 : Int) ^ k * secondNs) with hle | hlt
    · rw [min_eq_right hle]
      have hcap : nextInterval (k + 1) hourNs = hourNs := by
        unfold nextInterval
        rw [if_neg (lt_irrefl hourNs)]
      have hmono : hourNs ≤ (2 : Int) ^ (k + 1) * secondNs := by
        refine le_trans hle (mul_le_mul_of_nonneg_right ?_ (le_of_lt secondNs_pos))
        exact pow_le_pow_right₀ (by norm_num) (Nat.le_succ k)
      rw [hcap, min_eq_right hmono]
    · rw [min_eq_left (le_of_lt hlt)]
      have hpk : (0 : Int) < 2 ^ k := pow_pos (by norm_num) k
      have hk3600 : (2 : Int) ^ k < 3600 := by
        have := hlt
        unfold hourNs at this
        exact lt_of_mul_lt_mul_right this (le_of_lt secondNs_pos)
      have hk1 : (2 : Int) ^ (k + 1) < 7200 := by
        rw [pow_succ]
        calc (2 : Int) ^ k * 2 < 3600 * 2 := by
              exact mul_lt_mul_of_pos_right hk3600 (by norm_num)
          _ = 7200 := by norm_num
      have hk1pos : (0 : Int) < 2 ^ (k + 1) := pow_pos (by norm_num) (k + 1)
      have hw1 : wrap64 ((2 : Int) ^ (k + 1)) = (2 : Int) ^ (k + 1) :=
        wrap64_eq_of_lt (le_of_lt hk1pos) (by calc
          (2 : Int) ^ (k + 1) < 7200 := hk1
          _ < 2 ^ 63 := by norm_num)
      have hprodlt : (2 : Int) ^ (k + 1) * secondNs < 7200 * secondNs :=
        mul_lt_mul_of_pos_right hk1 secondNs_pos
      have hprodpos : (0 : Int) ≤ 2 ^ (k + 1) * secondNs :=
        le_of_lt (mul_pos hk1pos secondNs_pos)
      have hw2 : wrap64 ((2 : Int) ^ (k + 1) * secondNs) = (2 : Int) ^ (k + 1) * secondNs :=
        wrap64_eq_of_lt hprodpos (by calc
          (2 : Int) ^ (k + 1) * secondNs < 7200 * secondNs := hprodlt
          _ < 2 ^ 63 := by decide)
      unfold nextInterval
      rw [if_pos hlt]
      simp only [hw1, hw2]
      rcases le_or_lt hourNs ((2 : Int) ^ (k + 1) * secondNs) with hge | hlt2
      · rw [if_pos (Or.inl hge), min_eq_right hge]
      · rw [if_neg ?_, min_eq_left (le_of_lt hlt2)]
        push_neg
        exact ⟨hlt2, hprodpos⟩

/-- Claim C4: in continuous mode the delay between tick k and tick k+1
(k ≥ 1) equals `min(2^(k-1) seconds, 1 hour)` — the inter-tick delays run
1s, 2s, 4s, 8s, ... saturating at 3600s — and for every tick index the
computed delay is strictly positive and at most 3600s: the one-hour cap is
reached before the shift can overflow, and the overflow/negative guard caps
anything that would escape. -/
theorem tickDelay_backoff (k : Nat) (hk : 1 ≤ k) :
    tickDelay k = min ((2 : Int) ^ (k - 1) * secondNs) hourNs ∧
    0 < tickDelay k ∧ tickDelay k ≤ hourNs := by
  obtain ⟨j, rfl⟩ : ∃ j, k = j + 1 := ⟨k - 1, (Nat.succ_pred_eq_of_pos hk).symm⟩
  have hform : tickDelay (j + 1) = min ((2 : Int) ^ j * secondNs) hourNs := by
    unfold tickDelay
    rw [schedState_closed_form]
  have hjeq : j + 1 - 1 = j := rfl
  refine ⟨by rw [hform, hjeq], ?_, ?_⟩
  · rw [hform]
    exact lt_min (mul_pos (pow_pos (by norm_num) j) secondNs_pos) (by decide)
  · rw [hform]
    exact min_le_right _ _

theorem tickDelay_backoff_witness :
    tickDelay 3 = min ((2 : Int) ^ 2 * secondNs) hourNs ∧
    0 < tickDelay 3 ∧ tickDelay 3 ≤ hourNs :=
  tickDelay_backoff 3 (by decide)

/-! ## Cancellation interleavings of the scheduler goroutine
(browse.go lines 90-135 and 209-210)

A finite abstraction of the three concurrent parties: the scheduler
goroutine, the orchestrator's select loop, and the unbuffered channel `qs`
between them.  Each transition corresponds to a control point of browse.go;
in particular the send `qs <- q` at line 101 has no `ctx.Done()` alternative,
so the only transition out of the sending phase requires the orchestrator to
still be in its select loop. -/

/-- Control point of the scheduler goroutine: `sleeping` while in the jitter
sleep (line 106) or in the backoff select (lines 124-130); `sending` while
blocked at the unbuffered channel send `qs <- q` (line 101); `finished` after
the goroutine returned. -/
inductive SchedPhase where
  | sleeping
  | sending
  | finished
deriving DecidableEq, Repr

/-- Control point of the orchestrator: `looping` inside the for/select of
lines 138-211; `returned` after line 210 executed. -/
inductive OrchPhase where
  | looping
  | returned
deriving DecidableEq, Repr

/-- Joint state of the session: the two control points and whether the
governing context has been cancelled. -/
structure SessionState where
  sched : SchedPhase
  orch : OrchPhase
  cancelled : Bool
deriving DecidableEq, Repr

/-- The interleaved small-step transitions of the session.  `cancel` is the
environment cancelling the governing context; `wake` is a sleep or backoff
wait elapsing so that `query()` reaches the channel send; `schedCancelled` is
the backoff select taking its `ctx.Done()` case; `handoff` is the
orchestrator receiving on `qs` (after which we let the batch end, the
goroutine returning or going back to waiting — the terminating case is taken,
which only strengthens the reachability result below); `orchReturn` is the
orchestrator's select taking `ctx.Done()` and `lookupType` returning.  The
send at line 101 deliberately has no cancellation transition, because the Go
statement `qs <- q` offers none. -/
inductive SessionStep : SessionState → SessionState → Prop where
  | cancel (s : SessionState) :
      SessionStep s { s with cancelled := true }
  | wake (s : SessionState) (h : s.sched = SchedPhase.sleeping) :
      SessionStep s { s with sched := SchedPhase.sending }
  | schedCancelled (s : SessionState) (h : s.sched = SchedPhase.sleeping)
      (hc : s.cancelled = true) :
      SessionStep s { s with sched := SchedPhase.finished }
  | handoff (s : SessionState) (h : s.sched = SchedPhase.sending)
      (ho : s.orch = OrchPhase.looping) :
      SessionStep s { s with sched := SchedPhase.finished }
  | orchReturn (s : SessionState) (hc : s.cancelled = true)
      (ho : s.orch = OrchPhase.looping) :
      SessionStep s { s with orch := OrchPhase.returned }

/-- The session begins with the goroutine in its jitter sleep and the
orchestrator in its select loop, context not yet cancelled. -/
def sessionInit : SessionState :=
  ⟨SchedPhase.sleeping, OrchPhase.looping, false⟩

/-- The leaked configuration: context cancelled, `lookupType` returned, and
the scheduler goroutine still blocked at `qs <- q`. -/
def leakedState : SessionState :=
  ⟨SchedPhase.sending, OrchPhase.returned, true⟩

/-- Claim C5 (refuting the termination part): there is a cancellation
interleaving — the wait elapses, `query()` blocks at `qs <- q`, the context
is cancelled, the orchestrator returns — that reaches `leakedState`, and from
`leakedState` every reachable state still has the scheduler blocked at the
channel send: the goroutine never finishes, i.e. a scheduler task outlives
the loop's return. -/
theorem scheduler_can_leak :
    Relation.ReflTransGen SessionStep sessionInit leakedState ∧
    ∀ t, Relation.ReflTransGen SessionStep leakedState t →
      t.sched = SchedPhase.sending ∧ t.orch = OrchPhase.returned := by
  constructor
  · have s1 : SessionStep sessionInit ⟨SchedPhase.sending, OrchPhase.looping, false⟩ :=
      SessionStep.wake sessionInit rfl
    have s2 : SessionStep ⟨SchedPhase.sending, OrchPhase.looping, false⟩
        ⟨SchedPhase.sending, OrchPhase.looping, true⟩ :=
      SessionStep.cancel _
    have s3 : SessionStep ⟨SchedPhase.sending, OrchPhase.looping, true⟩ leakedState :=
      SessionStep.orchReturn _ rfl rfl
    exact Relation.ReflTransGen.head s1 (Relation.ReflTransGen.head s2
      (Relation.ReflTransGen.single s3))
  · intro t ht
    induction ht with
    | refl => exact ⟨rfl, rfl⟩
    | tail hab hbc ih =>
      rcases ih with ⟨hs, ho⟩
      cases hbc with
      | cancel => exact ⟨hs, ho⟩
      | wake h => rw [hs] at h; cases h
      | schedCancelled h hc => rw [hs] at h; cases h
      | handoff h hmid => rw [ho] at hmid; cases hmid
      | orchReturn hc hmid => rw [ho] at hmid; cases hmid

theorem scheduler_can_leak_witness :
    leakedState.sched = SchedPhase.sending ∧ leakedState.orch = OrchPhase.returned :=
  scheduler_can_leak.2 leakedState Relation.ReflTransGen.refl

/-! ## Scheduler trigger emissions (browse.go lines 96-135) -/

/-- The trigger carried on the `qs` channel: a copy of the question message
(identified by the browsed service type) bound to one interface
(browse.go line 100). -/
structure Query where
  service : String
  iface : String
deriving DecidableEq, Repr

/-- browse.go lines 97-103, one invocation of `query()`: one `Query` per
resolved multicast interface (interface resolution `MulticastInterfaces` is
the external collaborator; its resolved list is the parameter). -/
def queryBatch (service : String) (ifaces : List String) : List Query :=
  ifaces.map (fun i => ⟨service, i⟩)

/-- browse.go lines 108-134: the per-tick batches of trigger events the
scheduler emits.  The continuous branch loops forever until cancellation and
is clocked here by the number of elapsed waits `fuel`; the single-shot branch
calls `query()` exactly once and the goroutine's body ends. -/
def schedulerBatches (continuous : Bool) (fuel : Nat) (service : String)
    (ifaces : List String) : List (List Query) :=
  if continuous then List.replicate (fuel + 1) (queryBatch service ifaces)
  else [queryBatch service ifaces]

/-- Claim C8: with `continuous = false` the scheduler runs exactly one tick —
a single invocation of `query()` — which emits one `Query` per target
multicast interface: the batch list is a single batch, the batch has one
element per interface, and (for distinct interface names) each interface
occurs in exactly one emitted `Query`; no second tick occurs for any amount
of elapsed time (`fuel`). -/
theorem singleShot_one_batch (service : String) (ifaces : List String) (fuel : Nat)
    (hnd : ifaces.Nodup) :
    schedulerBatches false fuel service ifaces = [queryBatch service ifaces] ∧
    (queryBatch service ifaces).length = ifaces.length ∧
    ∀ i ∈ ifaces, (queryBatch service ifaces).countP (fun q => q.iface == i) = 1 := by
  refine ⟨rfl, by simp [queryBatch], fun i hi => ?_⟩
  unfold queryBatch
  rw [List.countP_map]
  have hcount : List.countP (fun x => x == i) ifaces = 1 := by
    have h1 : List.count i ifaces = 1 := List.count_eq_one_of_mem hnd hi
    simpa [List.count] using h1
  simpa using hcount

theorem singleShot_one_batch_witness :
    schedulerBatches false 7 "_http._tcp.local." ["en0", "en1"] =
        [queryBatch "_http._tcp.local." ["en0", "en1"]] ∧
    (queryBatch "_http._tcp.local." ["en0", "en1"]).length = 2 ∧
    (queryBatch "_http._tcp.local." ["en0", "en1"]).countP
        (fun q => q.iface == "en0") = 1 := by
  have h := singleShot_one_batch "_http._tcp.local." ["en0", "en1"] 7 (by decide)
  exact ⟨h.1, h.2.1, h.2.2 "en0" (by decide)⟩

/-! ## Initial jitter (browse.go lines 105-106) -/

/-- Modelled from the spec: Go's `rand.Intn n` returns a uniform value in
`[0, n)`; the pseudo-random source is abstracted as an arbitrary seed. -/
def randIntn (n : Nat) (seed : Nat) : Nat := seed % n

/-- browse.go line 106: the initial jitter in milliseconds,
`rand.Intn(100) + 20`. -/
def jitterMs (seed : Nat) : Nat := randIntn 100 seed + 20

/-- Claim C9 as stated is false: the jitter never takes the value 120 ms,
although 120 lies in the claimed interval [20ms, 120ms] of possible values. -/
theorem jitter_never_120 : ¬ ∃ seed, jitterMs seed = 120 := by
  rintro ⟨s, h⟩
  unfold jitterMs randIntn at h
  have : s % 100 < 100 := Nat.mod_lt s (by norm_num)
  omega

/-- Claim C9 (amended): the initial jitter always lies in [20ms, 119ms], and
every whole-millisecond value in that interval is attainable. -/
theorem jitter_range_exact :
    (∀ seed, 20 ≤ jitterMs seed ∧ jitterMs seed ≤ 119) ∧
    ∀ v, 20 ≤ v → v ≤ 119 → ∃ seed, jitterMs seed = v := by
  constructor
  · intro seed
    unfold jitterMs randIntn
    have : seed % 100 < 100 := Nat.mod_lt seed (by norm_num)
    omega
  · intro v h1 h2
    refine ⟨v - 20, ?_⟩
    unfold jitterMs randIntn
    omega

theorem jitter_range_exact_witness :
    (20 ≤ jitterMs 42 ∧ jitterMs 42 ≤ 119) ∧ ∃ seed, jitterMs seed = 119 :=
  ⟨jitter_range_exact.1 42, jitter_range_exact.2 119 (by decide) (by decide)⟩

/-! ## Diff completeness of the reconciler

The additions of `additionPass` are characterized in closed form: one entry
per (matching record, interface) pair whose key was not already announced.
The characterization needs the cache's record-identity invariant (spec §3:
a record's identity is (instance name, service type, domain), and the
per-interface address map has one slot per interface), stated below as
`Nodup` of the generated key list `pairsOf`. -/

/-- The additions contributed by one matching record: one entry per interface
slot whose (name, interface) key is not already in the prior announced set
`es0`. -/
def innerAdds (srv : Service) (es0 : List BrowseEntry)
    (ps : List (String × List String)) : List BrowseEntry :=
  (ps.filter (fun p => !containsPair es0 srv.Name p.1)).map
    (fun p => entryFrom srv p.1 p.2)

/-- The additions determined by the snapshot and the prior announced set
`es0`: for each record of the browsed type, in snapshot order, the entries of
`innerAdds`. -/
def addsSpec (service : String) (es0 : List BrowseEntry) : List Service → List BrowseEntry
  | [] => []
  | srv :: rest =>
      (if srv.ServiceName == service then innerAdds srv es0 srv.ifaceIPs else [])
        ++ addsSpec service es0 rest

/-- The (instance name, interface) keys generated by the addition pass over a
snapshot: one per (matching record, interface slot). -/
def pairsOf (service : String) : List Service → List (String × String)
  | [] => []
  | srv :: rest =>
      (if srv.ServiceName == service then srv.ifaceIPs.map (fun p => (srv.Name, p.1)) else [])
        ++ pairsOf service rest

theorem innerAdds_keys_sub (srv : Service) (es0 : List BrowseEntry)
    (ps : List (String × List String)) :
    ∀ k ∈ (innerAdds srv es0 ps).map entryKey, k ∈ ps.map (fun p => (srv.Name, p.1)) := by
  intro k hk
  simp only [innerAdds, List.map_map, List.mem_map, Function.comp] at hk
  obtain ⟨p, hp, hkey⟩ := hk
  exact List.mem_map.mpr ⟨p, List.mem_of_mem_filter hp, by rw [← hkey]; rfl⟩

theorem pairsOf_cons (service : String) (srv : Service) (rest : List Service) :
    pairsOf service (srv :: rest) =
      (if (srv.ServiceName == service) = true
        then srv.ifaceIPs.map (fun p => (srv.Name, p.1)) else [])
        ++ pairsOf service rest := rfl

theorem addsSpec_cons (service : String) (es0 : List BrowseEntry) (srv : Service)
    (rest : List Service) :
    addsSpec service es0 (srv :: rest) =
      (if (srv.ServiceName == service) = true
        then innerAdds srv es0 srv.ifaceIPs else [])
        ++ addsSpec service es0 rest := rfl

theorem additionPass_cons (service : String) (srv : Service) (rest : List Service)
    (st : List BrowseEntry × List BrowseEntry) :
    additionPass (srv :: rest) service st =
      additionPass rest service
        (if (srv.ServiceName == service) = true
          then srv.ifaceIPs.foldl (addStep srv) st else st) := rfl

theorem inner_fold (srv : Service) (es0 : List BrowseEntry) :
    ∀ (ps : List (String × List String)) (acc : List BrowseEntry),
    (ps.map (fun p => (srv.Name, p.1))).Nodup →
    (∀ p ∈ ps, (srv.Name, p.1) ∉ acc.map entryKey) →
    ps.foldl (addStep srv) (es0 ++ acc, acc) =
      (es0 ++ (acc ++ innerAdds srv es0 ps), acc ++ innerAdds srv es0 ps) := by
  intro ps
  induction ps with
  | nil => intro acc _ _; simp [innerAdds]
  | cons p ps ih =>
    intro acc hnd hacc
    have haccp : containsPair acc srv.Name p.1 = false :=
      (containsPair_eq_false_iff acc srv.Name p.1).mpr
        (hacc p (List.mem_cons_self p ps))
    have hndtail : (ps.map (fun p => (srv.Name, p.1))).Nodup := by
      simp only [List.map_cons, List.nodup_cons] at hnd
      exact hnd.2
    have hheadnotin : (srv.Name, p.1) ∉ ps.map (fun p => (srv.Name, p.1)) := by
      simp only [List.map_cons, List.nodup_cons] at hnd
      exact hnd.1
    have hcp : containsPair (es0 ++ acc) srv.Name p.1 = containsPair es0 srv.Name p.1 := by
      rw [containsPair_append, haccp, Bool.or_false]
    by_cases hc : containsPair es0 srv.Name p.1 = true
    · have hstep : addStep srv (es0 ++ acc, acc) p = (es0 ++ acc, acc) := by
        simp only [addStep, hcp, hc, if_true]
      rw [List.foldl_cons, hstep]
      have hinner : innerAdds srv es0 (p :: ps) = innerAdds srv es0 ps := by
        unfold innerAdds
        rw [List.filter_cons]
        simp [hc]
      rw [hinner]
      exact ih acc hndtail (fun q hq => hacc q (List.mem_cons_of_mem p hq))
    · have hc' : containsPair es0 srv.Name p.1 = false := Bool.eq_false_iff.mpr hc
      have hstep : addStep srv (es0 ++ acc, acc) p =
          (es0 ++ (acc ++ [entryFrom srv p.1 p.2]), acc ++ [entryFrom srv p.1 p.2]) := by
        simp only [addStep, hcp, hc', Bool.false_eq_true, if_false, List.append_assoc]
      rw [List.foldl_cons, hstep]
      have hacc2 : ∀ q ∈ ps,
          (srv.Name, q.1) ∉ (acc ++ [entryFrom srv p.1 p.2]).map entryKey := by
        intro q hq
        rw [List.map_append]
        intro hmem
        rcases List.mem_append.mp hmem with h1 | h1
        · exact hacc q (List.mem_cons_of_mem p hq) h1
        · simp only [List.map_cons, List.map_nil, List.mem_singleton,
            entryKey_entryFrom] at h1
          exact hheadnotin (h1 ▸ List.mem_map.mpr ⟨q, hq, rfl⟩)
      rw [ih (acc ++ [entryFrom srv p.1 p.2]) hndtail hacc2]
      have hinner : innerAdds srv es0 (p :: ps) =
          entryFrom srv p.1 p.2 :: innerAdds srv es0 ps := by
        unfold innerAdds
        rw [List.filter_cons]
        simp [hc']
      rw [hinner]
      simp [List.append_assoc]

theorem additionPass_closed_form (service : String) (es0 : List BrowseEntry) :
    ∀ (svcs : List Service) (acc : List BrowseEntry),
    (pairsOf service svcs).Nodup →
    (∀ k ∈ pairsOf service svcs, k ∉ acc.map entryKey) →
    additionPass svcs service (es0 ++ acc, acc) =
      (es0 ++ (acc ++ addsSpec service es0 svcs), acc ++ addsSpec service es0 svcs) := by
  intro svcs
  induction svcs with
  | nil => intro acc _ _; simp [additionPass, addsSpec]
  | cons srv rest ih =>
    intro acc hnd hacc
    rw [additionPass_cons]
    by_cases hm : (srv.ServiceName == service) = true
    · have hpairs : pairsOf service (srv :: rest) =
          srv.ifaceIPs.map (fun p => (srv.Name, p.1)) ++ pairsOf service rest := by
        rw [pairsOf_cons, if_pos hm]
      rw [hpairs] at hnd hacc
      rw [List.nodup_append] at hnd
      have hinner := inner_fold srv es0 srv.ifaceIPs acc hnd.1
        (fun p hp => hacc (srv.Name, p.1)
          (List.mem_append_left _ (List.mem_map.mpr ⟨p, hp, rfl⟩)))
      rw [if_pos hm, hinner]
      have hacc2 : ∀ k ∈ pairsOf service rest,
          k ∉ (acc ++ innerAdds srv es0 srv.ifaceIPs).map entryKey := by
        intro k hk
        rw [List.map_append]
        intro hmem
        rcases List.mem_append.mp hmem with h1 | h1
        · exact hacc k (List.mem_append_right _ hk) h1
        · have hkblock := innerAdds_keys_sub srv es0 srv.ifaceIPs k h1
          exact hnd.2.2 hkblock hk
      rw [ih (acc ++ innerAdds srv es0 srv.ifaceIPs) hnd.2.1 hacc2]
      rw [addsSpec_cons, if_pos hm]
      simp [List.append_assoc]
    · have hpairs : pairsOf service (srv :: rest) = pairsOf service rest := by
        rw [pairsOf_cons, if_neg hm, List.nil_append]
      rw [hpairs] at hnd hacc
      rw [if_neg hm]
      rw [ih acc hnd hacc]
      rw [addsSpec_cons, if_neg hm, List.nil_append]

theorem addsSpec_all_kept (service : String) (es0 : List BrowseEntry)
    (snap : List Service) :
    ∀ (svcs : List Service), (∀ s ∈ svcs, s ∈ snap) →
    ∀ a ∈ addsSpec service es0 svcs, removalKeep snap a = true := by
  intro svcs
  induction svcs with
  | nil => intro _ a ha; cases ha
  | cons srv rest ih =>
    intro hsub a ha
    unfold addsSpec at ha
    rcases List.mem_append.mp ha with h1 | h2
    · by_cases hm : srv.ServiceName == service
      · rw [if_pos hm] at h1
        simp only [innerAdds, List.mem_map] at h1
        obtain ⟨p, _, rfl⟩ := h1
        have hsrv : srv ∈ snap := hsub srv (List.mem_cons_self srv rest)
        unfold removalKeep
        rw [List.any_eq_true]
        refine ⟨srv, hsrv, ?_⟩
        have hsin : (entryFrom srv p.1 p.2).ServiceInstanceName =
            srv.ServiceInstanceName := rfl
        rw [hsin]
        exact beq_self_eq_true _
      · rw [if_neg hm] at h1
        cases h1
    · exact ih (fun s hs => hsub s (List.mem_cons_of_mem srv hs)) a h2

theorem addsSpec_mem_iff (service : String) (es0 : List BrowseEntry)
    (svcs : List Service) (a : BrowseEntry) :
    a ∈ addsSpec service es0 svcs ↔
      ∃ srv ∈ svcs, srv.ServiceName = service ∧
        ∃ p ∈ srv.ifaceIPs, containsPair es0 srv.Name p.1 = false ∧
          a = entryFrom srv p.1 p.2 := by
  induction svcs with
  | nil => simp [addsSpec]
  | cons srv rest ih =>
    unfold addsSpec
    rw [List.mem_append, ih]
    constructor
    · rintro (h1 | ⟨s, hs, hss, p, hp, hc, rfl⟩)
      · by_cases hm : srv.ServiceName == service
        · rw [if_pos hm] at h1
          simp only [innerAdds, List.mem_map] at h1
          obtain ⟨p, hp, rfl⟩ := h1
          have hp2 := List.mem_filter.mp hp
          refine ⟨srv, List.mem_cons_self srv rest, beq_iff_eq.mp hm, p, hp2.1, ?_, rfl⟩
          have := hp2.2
          simp only [Bool.not_eq_eq_eq_not, Bool.not_true] at this
          simpa using this
        · rw [if_neg hm] at h1
          cases h1
      · exact ⟨s, List.mem_cons_of_mem srv hs, hss, p, hp, hc, rfl⟩
    · rintro ⟨s, hs, hss, p, hp, hc, rfl⟩
      rcases List.mem_cons.mp hs with rfl | hs2
      · refine Or.inl ?_
        rw [if_pos (beq_iff_eq.mpr hss)]
        simp only [innerAdds, List.mem_map]
        refine ⟨p, List.mem_filter.mpr ⟨hp, ?_⟩, rfl⟩
        simp [hc]
      · exact Or.inr ⟨s, hs2, hss, p, hp, hc, rfl⟩

/-- Claim C2: for every inbound-message event the reconciler's outputs are
exactly determined by the post-ingestion snapshot and the prior announced
set: the additions are `addsSpec` — one new entry per (record of the browsed
type, interface slot) pair whose (name, interface) key is not already
announced, as the accompanying membership characterization states — and the
removals are exactly the previously announced entries whose fully-qualified
instance name matches no record in the snapshot; additions are appended to
the announced set before the removal pass is evaluated, and both passes read
the same snapshot.  The hypothesis is the cache's record-identity invariant:
the keys generated from the snapshot are pairwise distinct. -/
theorem reconcile_diff (snap : List Service) (service : String) (es : List BrowseEntry)
    (hnd : (pairsOf service snap).Nodup) :
    reconcile snap service es =
      (es.filter (removalKeep snap) ++ addsSpec service es snap,
       addsSpec service es snap,
       es.filter (fun e => !removalKeep snap e)) ∧
    ∀ a, a ∈ addsSpec service es snap ↔
      ∃ srv ∈ snap, srv.ServiceName = service ∧
        ∃ p ∈ srv.ifaceIPs, containsPair es srv.Name p.1 = false ∧
          a = entryFrom srv p.1 p.2 := by
  refine ⟨?_, fun a => addsSpec_mem_iff service es snap a⟩
  have hadd : additionPass snap service (es, []) =
      (es ++ addsSpec service es snap, addsSpec service es snap) := by
    have := additionPass_closed_form service es snap [] hnd (by intro k _ h; cases h)
    simpa using this
  have hkept := addsSpec_all_kept service es snap snap (fun s hs => hs)
  unfold reconcile
  rw [hadd]
  unfold removalPass
  simp only [List.filter_append]
  have h1 : (addsSpec service es snap).filter (removalKeep snap) =
      addsSpec service es snap :=
    List.filter_eq_self.mpr hkept
  have h2 : (addsSpec service es snap).filter (fun e => !removalKeep snap e) = [] := by
    rw [List.filter_eq_nil_iff]
    intro a ha
    rw [hkept a ha]
    simp
  rw [h1, h2, List.append_nil]

theorem reconcile_diff_witness :
    reconcile [srvFresh] "_http._tcp.local." [entFoo] =
      ([entFoo].filter (removalKeep [srvFresh]) ++
        addsSpec "_http._tcp.local." [entFoo] [srvFresh],
       addsSpec "_http._tcp.local." [entFoo] [srvFresh],
       [entFoo].filter (fun e => !removalKeep [srvFresh] e)) :=
  (reconcile_diff [srvFresh] "_http._tcp.local." [entFoo] (by decide)).1

/-! ## Frame effect for already-announced pairs -/

theorem containsPair_of_mem {es : List BrowseEntry} {e : BrowseEntry} (he : e ∈ es) :
    containsPair es e.Name e.IfaceName = true := by
  unfold containsPair
  rw [List.any_eq_true]
  exact ⟨e, he, by simp⟩

theorem reconcile_eq (snap : List Service) (service : String) (es : List BrowseEntry) :
    reconcile snap service es =
      ((additionPass snap service (es, [])).1.filter (removalKeep snap),
       (additionPass snap service (es, [])).2,
       (additionPass snap service (es, [])).1.filter
         (fun e => !removalKeep snap e)) := rfl

/-- The addition pass only grows the announced set, and never emits an
addition whose (name, interface) pair is that of an entry already in the
announced set it started from. -/
theorem additionPass_frame (snap : List Service) (service : String)
    (es : List BrowseEntry) (e : BrowseEntry) (he : e ∈ es) :
    e ∈ (additionPass snap service (es, [])).1 ∧
    ∀ a ∈ (additionPass snap service (es, [])).2,
      ¬(a.Name = e.Name ∧ a.IfaceName = e.IfaceName) := by
  have hstep : ∀ (srv : Service) (st : List BrowseEntry × List BrowseEntry)
      (p : String × List String),
      (e ∈ st.1 ∧ ∀ a ∈ st.2, ¬(a.Name = e.Name ∧ a.IfaceName = e.IfaceName)) →
      (e ∈ (addStep srv st p).1 ∧
        ∀ a ∈ (addStep srv st p).2, ¬(a.Name = e.Name ∧ a.IfaceName = e.IfaceName)) := by
    intro srv st p hinv
    unfold addStep
    by_cases hc : containsPair st.1 srv.Name p.1 = true
    · rw [if_pos hc]
      exact hinv
    · rw [if_neg hc]
      refine ⟨List.mem_append_left _ hinv.1, ?_⟩
      intro a ha
      rcases List.mem_append.mp ha with h1 | h1
      · exact hinv.2 a h1
      · rw [List.mem_singleton] at h1
        subst h1
        rintro ⟨h2, h3⟩
        have : containsPair st.1 srv.Name p.1 = true := by
          have hm := containsPair_of_mem hinv.1
          simp only [entryFrom] at h2 h3
          rw [h2, h3]
          exact hm
        exact hc this
  have hmain := foldl_inv
    (fun st : List BrowseEntry × List BrowseEntry =>
      e ∈ st.1 ∧ ∀ a ∈ st.2, ¬(a.Name = e.Name ∧ a.IfaceName = e.IfaceName))
    (fun st srv =>
      if (srv.ServiceName == service) = true
        then srv.ifaceIPs.foldl (addStep srv) st else st)
    (by
      intro st srv hinv
      dsimp only
      by_cases hm : (srv.ServiceName == service) = true
      · rw [if_pos hm]
        exact foldl_inv _ (addStep srv) (fun s p h => hstep srv s p h)
          srv.ifaceIPs st hinv
      · rw [if_neg hm]
        exact hinv)
    snap (es, []) ⟨he, by intro a ha; cases ha⟩
  exact hmain

/-- Claim C10: for an inbound message whose post-ingestion snapshot still
contains a record with the fully-qualified instance name of an
already-announced entry (same instance name, and the entry's interface among
the record's interface slots), the reconciler fires no add callback for that
(name, interface) pair and no remove callback for that entry, and the entry
itself — with its addition-time addresses, host, port and text — stays in the
announced set unchanged.  No hypothesis relates the record's current host,
port or addresses to the entry's, so the conclusion holds even when they
have changed since the entry was created. -/
theorem announced_pair_frame (snap : List Service) (service : String)
    (es : List BrowseEntry) (e : BrowseEntry) (srv : Service)
    (he : e ∈ es) (hs : srv ∈ snap)
    (_hname : srv.Name = e.Name)
    (_hiface : e.IfaceName ∈ srv.ifaceIPs.map Prod.fst)
    (hsin : srv.ServiceInstanceName = e.ServiceInstanceName) :
    (∀ a ∈ (reconcile snap service es).2.1,
      ¬(a.Name = e.Name ∧ a.IfaceName = e.IfaceName)) ∧
    e ∉ (reconcile snap service es).2.2 ∧
    e ∈ (reconcile snap service es).1 := by
  have hframe := additionPass_frame snap service es e he
  have hkeep : removalKeep snap e = true := by
    unfold removalKeep
    rw [List.any_eq_true]
    exact ⟨srv, hs, by rw [hsin]; exact beq_self_eq_true _⟩
  rw [reconcile_eq]
  refine ⟨hframe.2, ?_, ?_⟩
  · intro hmem
    have := (List.mem_filter.mp hmem).2
    rw [hkeep] at this
    cases this
  · exact List.mem_filter.mpr ⟨hframe.1, hkeep⟩

theorem announced_pair_frame_witness :
    (∀ a ∈ (reconcile [srvFresh] "_http._tcp.local." [entFoo]).2.1,
      ¬(a.Name = entFoo.Name ∧ a.IfaceName = entFoo.IfaceName)) ∧
    entFoo ∉ (reconcile [srvFresh] "_http._tcp.local." [entFoo]).2.2 ∧
    entFoo ∈ (reconcile [srvFresh] "_http._tcp.local." [entFoo]).1 :=
  announced_pair_frame [srvFresh] "_http._tcp.local." [entFoo] entFoo srvFresh
    (by decide) (by decide) (by decide) (by decide) (by decide)

end Dnssd
